import Mathlib

/-!
Verification development for the JSON→Cypher compiler
(`JSONtoCypher_production.py`).

The Python source is shallowly embedded below: pydantic models become
structures, formatting helpers become pure string functions, code that can
raise a Python exception returns `Except String` (the exception message), and
the `convert_json_to_cypher` entry point catches those errors and prepends the
`"❌ Error: "` marker, exactly as the source's `try`/`except` does.  Structural
binding of the raw JSON document into the typed model (pydantic
`model_validate`) is an external library; its outcome is represented by the
`Except String CypherQuery` input of `convertJsonToCypher`.
-/

/-! ### Entity model (pydantic models of the source) -/

/-- Values carried by conditions and properties (Python `Any` restricted to the
literal kinds the renderer distinguishes: `str`, `bool`, `None`, and `int` for
the remaining numeric branch). -/
inductive JValue where
  | str (s : String)
  | int (n : Int)
  | bool (b : Bool)
  | null
deriving DecidableEq, Inhabited

structure Condition where
  field : String
  operator : String
  value : JValue
deriving DecidableEq, Inhabited

structure WhereClause where
  type' : String
  conditions : List Condition
deriving DecidableEq, Inhabited

structure Node where
  label : String
  alias' : String
deriving DecidableEq, Inhabited

structure Relationship where
  node1 : String
  node2 : String
  type' : String
  optional : Bool
deriving DecidableEq, Inhabited

structure Aggregation where
  function' : String
  field : String
  alias' : String
deriving DecidableEq, Inhabited

structure WithClause where
  fields : List String
  aggregations : Option (List Aggregation)
deriving DecidableEq, Inhabited

structure ReturnClause where
  fields : List String
  distinct : Bool
deriving DecidableEq, Inhabited

structure OrderByClause where
  field : String
  direction : String
deriving DecidableEq, Inhabited

structure CypherQuery where
  nodes : List Node
  relationships : List Relationship
  whereClause : Option WhereClause
  with_ : Option WithClause
  withClause : Option WhereClause
  returnClause : ReturnClause
  orderBy : Option OrderByClause
  limit : Option Int
deriving DecidableEq, Inhabited

/-! ### String helpers

Python string primitives used by the source (`str.strip`, `str.split(sep, 1)`,
`"x" in s`, `str.strip("`")`, the backtick regex) are modelled over the
character list of the string so that everything reduces by computation. -/

/-- The backtick character (U+0060). -/
def backtickChar : Char := Char.ofNat 96

/-- Python `str.strip()`: drop leading and trailing whitespace. -/
def trimWs (s : String) : String :=
  ⟨((s.data.dropWhile Char.isWhitespace).reverse.dropWhile Char.isWhitespace).reverse⟩

/-- Python `s.strip("`")`: drop leading and trailing backticks. -/
def stripBackticks (s : String) : String :=
  ⟨((s.data.dropWhile (· = backtickChar)).reverse.dropWhile (· = backtickChar)).reverse⟩

/-- Python `c in s` for a single character `c`. -/
def containsChar (s : String) (c : Char) : Bool :=
  s.data.contains c

/-- The part of `s` before the first `.` (Python `s.split('.', 1)[0]`). -/
def splitDotPre (s : String) : String :=
  ⟨s.data.takeWhile (· ≠ '.')⟩

/-- The part of `s` after the first `.` (Python `s.split('.', 1)[1]`,
meaningful when `s` contains a dot). -/
def splitDotPost (s : String) : String :=
  ⟨(s.data.dropWhile (· ≠ '.')).drop 1⟩

/-- `pat` is a prefix of `cs`. -/
def charsPre : List Char → List Char → Bool
  | [], _ => true
  | _ :: _, [] => false
  | p :: ps, c :: cs => p = c && charsPre ps cs

/-- Characters of `cs` before the first occurrence of the four-character
separator `" AS "` (all of `cs` if it does not occur); Python
`s.split(' AS ')[0]`. -/
def takeBeforeAS : List Char → List Char
  | [] => []
  | c :: rest =>
      if charsPre [' ', 'A', 'S', ' '] (c :: rest) then []
      else c :: takeBeforeAS rest

/-- Python `sep.join(parts)`. -/
def joinSep (sep : String) : List String → String
  | [] => ""
  | [x] => x
  | x :: y :: xs => x ++ sep ++ joinSep sep (y :: xs)

/-- The source's field regex `^.*`.*`.*$` (with `re.match`): `.` does not match
a newline and `$` also matches just before a single trailing newline, so the
regex matches exactly when the string — after removing at most one trailing
newline — contains no newline and at least two backticks. -/
def reBacktickMatch (s : String) : Bool :=
  let cs := s.data
  let core := if cs.getLast? = some '\n' then cs.dropLast else cs
  !core.contains '\n' && 2 ≤ core.count backtickChar

/-! ### Validation functions -/

/-- Loop body of `validate_aliases`: check each relationship's endpoints
against the declared alias set, failing on the first missing one. -/
def validateAliasesGo (nodeAliases : List String) : List Relationship → Except String Unit
  | [] => .ok ()
  | rel :: rels =>
      if rel.node1 ∉ nodeAliases then
        .error ("Relationship node1 alias '" ++ rel.node1 ++ "' not found in nodes.")
      else if rel.node2 ∉ nodeAliases then
        .error ("Relationship node2 alias '" ++ rel.node2 ++ "' not found in nodes.")
      else validateAliasesGo nodeAliases rels

/-- `validate_aliases(nodes, relationships)`. -/
def validateAliases (nodes : List Node) (relationships : List Relationship) : Except String Unit :=
  validateAliasesGo (nodes.map (·.alias')) relationships

/-- `validate_field_syntax(fields)`: a field containing a space that does not
match the backtick regex raises `ValueError`. -/
def validateFieldSyntax : List String → Except String Unit
  | [] => .ok ()
  | f :: fs =>
      if containsChar f ' ' && !reBacktickMatch f then
        .error ("Field '" ++ f ++ "' contains spaces and is not backticked.")
      else validateFieldSyntax fs

/-- `validate_conditions(conditions)`: field-syntax validation of every
condition's field. -/
def validateConditions : List Condition → Except String Unit
  | [] => .ok ()
  | c :: cs =>
      match validateFieldSyntax [c.field] with
      | .error e => .error e
      | .ok _ => validateConditions cs

/-! ### Node formatting -/

/-- Python dict `{n.alias: n for n in nodes}` lookup: the **last** node with a
given alias wins. -/
def nodeLookup (nodes : List Node) (a : String) : Option Node :=
  nodes.reverse.find? (fun n => n.alias' = a)

/-- `_fmt_node(alias, node_lookup)`. -/
def fmtNode (a : String) (nodes : List Node) : String :=
  match nodeLookup nodes a with
  | some n => "(" ++ a ++ ":" ++ n.label ++ ")"
  | none => "(" ++ a ++ ")"

/-- Literal rendering of one property assignment `k: v` inside a node pattern
(`_fmt_node_with_props` loop body). -/
def propAssign (k : String) (v : JValue) : String :=
  match v with
  | .str s => k ++ ": '" ++ s ++ "'"
  | .bool b => k ++ ": " ++ (if b then "true" else "false")
  | .null => k ++ ": null"
  | .int n => k ++ ": " ++ toString n

/-- `_fmt_node_with_props(alias, label, props)`; `props` is the insertion-ordered
property dict. -/
def fmtNodeWithProps (a label : String) (props : List (String × JValue)) : String :=
  if props = [] then "(" ++ a ++ ":" ++ label ++ ")"
  else "(" ++ a ++ ":" ++ label ++ " \x7b" ++
       joinSep ", " (props.map fun p => propAssign p.1 p.2) ++ "\x7d)"

/-! ### Relationship pairs and the connectivity analyzer

`_connected_components_on_rels` works on `(node1, node2, type)` triples.  The
Python builds an adjacency dict between relationship indices and runs a BFS
with a deque; the model below is the same algorithm with an explicit fuel
argument (`n + 1` suffices, proved later) and neighbour enumeration in
increasing index order (Python iterates a `set`, whose order is unspecified;
the claims below are insensitive to that order). -/

structure RelPair where
  node1 : String
  node2 : String
  type' : String
deriving DecidableEq, Inhabited

/-- Two relationships are adjacent iff distinct indices share an endpoint
alias (the four comparisons of the source, line 112). -/
def sharesEndpoint (e f : RelPair) : Bool :=
  e.node1 = f.node1 || e.node1 = f.node2 || e.node2 = f.node1 || e.node2 = f.node2

/-- Adjacency between relationship indices `i`, `j` of `pairs` (both must be
actual indices, as in the source's `enumerate` double loop). -/
def relAdj (pairs : List RelPair) (i j : Nat) : Bool :=
  decide (i < pairs.length) && decide (j < pairs.length) && decide (i ≠ j) &&
    sharesEndpoint (pairs.getD i default) (pairs.getD j default)

/-- BFS over relationship indices: pop the queue head, append it to the
component, enqueue (and mark seen) its not-yet-seen neighbours.  Returns the
collected component and the final seen list. -/
def bfs (adj : Nat → Nat → Bool) (n : Nat) :
    Nat → List Nat → List Nat → List Nat → List Nat × List Nat
  | 0, _, seen, comp => (comp, seen)
  | _ + 1, [], seen, comp => (comp, seen)
  | fuel + 1, u :: queue, seen, comp =>
      let nbrs := (List.range n).filter (fun v => adj u v && decide (v ∉ seen))
      bfs adj n fuel (queue ++ nbrs) (seen ++ nbrs) (comp ++ [u])

/-- Outer loop of `_connected_components_on_rels`: scan indices in order,
starting a BFS at each unseen one. -/
def componentsAux (adj : Nat → Nat → Bool) (n : Nat) :
    List Nat → List Nat → List (List Nat)
  | [], _ => []
  | i :: rest, seen =>
      if i ∈ seen then componentsAux adj n rest seen
      else
        let r := bfs adj n (n + 1) [i] (seen ++ [i]) []
        r.1 :: componentsAux adj n rest r.2

/-- `_connected_components_on_rels(rel_pairs)`. -/
def components (pairs : List RelPair) : List (List Nat) :=
  componentsAux (relAdj pairs) pairs.length (List.range pairs.length) []

/-! ### The chain builder (`_chain_component`) -/

/-- All endpoint aliases of the component's edges, in occurrence order
(`a₀, b₀, a₁, b₁, …`), the insertion order of the source's `degree` dict. -/
def endpointsFlat (es : List RelPair) : List String :=
  es.flatMap (fun e => [e.node1, e.node2])

/-- Degree of alias `a` in the component: occurrence count as an endpoint. -/
def degree (es : List RelPair) (a : String) : Nat :=
  (endpointsFlat es).count a

/-- First-occurrence deduplication (Python dict key order). -/
def dedupFirstAux (seen : List String) : List String → List String
  | [] => []
  | x :: xs =>
      if x ∈ seen then dedupFirstAux seen xs
      else x :: dedupFirstAux (x :: seen) xs

/-- The component's aliases in first-occurrence order: the key order of the
source's `degree` dict, over which `next(...)` scans for a degree-1 alias. -/
def aliasOrder (es : List RelPair) : List String :=
  dedupFirstAux [] (endpointsFlat es)

/-- Start-alias selection of `_chain_component` (lines 145–148).  The Python
`next((alias for alias, d in degree.items() if d == 1), comp_edges)` defaults
to the edge **list** `comp_edges` itself; using that value as a node alias
raises `TypeError: unhashable type: 'list'` in `_fmt_node`.  That crash is
modelled by `none`. -/
def startOf (es : List RelPair) (preferredStart : Option String) : Option String :=
  match preferredStart with
  | some p =>
      if p ∈ aliasOrder es then some p
      else (aliasOrder es).find? (fun a => degree es a = 1)
  | none => (aliasOrder es).find? (fun a => degree es a = 1)

/-- Is `c` an endpoint of edge `e`? -/
def incident (c : String) (e : RelPair) : Bool :=
  e.node1 = c || e.node2 = c

/-- One step of the greedy walk: find the first (in index order) unused edge
incident to `c`, mark it used.  Equivalent to the source's scan of
`alias_adj[current]` with the `used` array. -/
def markFirst (c : String) : List (RelPair × Bool) → Option (RelPair × List (RelPair × Bool))
  | [] => none
  | (e, u) :: rest =>
      if !u && incident c e then some (e, (e, true) :: rest)
      else
        match markFirst c rest with
        | some (e', rest') => some (e', (e, u) :: rest')
        | none => none

/-- Outcome of the greedy walk: either the chained segments (the emitted
arrow/node tokens, with the list of edges in order of use as a trace), or the
fallback when no unused incident edge exists while unused edges remain. -/
inductive ChainOut where
  | chained (segs : List String) (trace : List RelPair)
  | fallback
deriving DecidableEq, Inhabited

/-- The greedy walk of `_chain_component` (lines 161–186).  `fuel` is the
number of still-unused edges: the Python loop runs `while used_count <
len(comp_edges)`, each iteration using exactly one edge or returning the
fallback. -/
def chainLoop (nodes : List Node) : Nat → List (RelPair × Bool) → String → ChainOut
  | 0, _, _ => .chained [] []
  | fuel + 1, st, c =>
      match markFirst c st with
      | none => .fallback
      | some (e, st') =>
          let nxt := if e.node1 = c then e.node2 else e.node1
          let arrow := if e.node1 = c then "-[:" ++ e.type' ++ "]->"
                       else "<-[:" ++ e.type' ++ "]-"
          match chainLoop nodes fuel st' nxt with
          | .chained segs tr => .chained (arrow :: fmtNode nxt nodes :: segs) (e :: tr)
          | .fallback => .fallback

/-- Start selection plus greedy walk; `none` models the `TypeError` crash of
the cycle fallback (see `startOf`). -/
def chainRun (compEdges : List RelPair) (nodes : List Node) (pref : Option String) :
    Option (String × ChainOut) :=
  match startOf compEdges pref with
  | none => none
  | some start => some (start, chainLoop nodes compEdges.length (compEdges.map (fun e => (e, false))) start)

/-- The fallback rendering (lines 181–186): every edge as an independent
two-node forward pattern. -/
def fallbackPatterns (compEdges : List RelPair) (nodes : List Node) : List String :=
  compEdges.map (fun e => fmtNode e.node1 nodes ++ "-[:" ++ e.type' ++ "]->" ++ fmtNode e.node2 nodes)

/-- `_chain_component(rel_pairs, comp_idxs, node_lookup, preferred_start)`;
the `TypeError` of the cycle case becomes an `Except.error` with Python's
message. -/
def chainComponent (relPairs : List RelPair) (compIdxs : List Nat) (nodes : List Node)
    (pref : Option String) : Except String String :=
  let compEdges := compIdxs.map (fun i => relPairs.getD i default)
  match chainRun compEdges nodes pref with
  | none => .error "unhashable type: 'list'"
  | some (start, .chained segs _) => .ok (joinSep "" (fmtNode start nodes :: segs))
  | some (_, .fallback) => .ok (joinSep ", " (fallbackPatterns compEdges nodes))

/-! ### Match-clause builders -/

/-- Chain every component of `comps` (the loop producing `patterns` in
`_build_single_match_clause`, line 200). -/
def chainAll (relPairs : List RelPair) (nodes : List Node) :
    List (List Nat) → Except String (List String)
  | [] => .ok []
  | comp :: rest =>
      match chainComponent relPairs comp nodes none with
      | .error e => .error e
      | .ok p =>
          match chainAll relPairs nodes rest with
          | .error e => .error e
          | .ok ps => .ok (p :: ps)

/-- Endpoint aliases of the given relationship pairs (the `involved` set of
line 201; only membership is used). -/
def involvedAliases (relPairs : List RelPair) : List String :=
  relPairs.flatMap (fun e => [e.node1, e.node2])

/-- Standalone rendering `(alias:Label)` of every node of `nodes`. -/
def allNodePatterns (nodes : List Node) : List String :=
  nodes.map (fun n => "(" ++ n.alias' ++ ":" ++ n.label ++ ")")

/-- `_build_single_match_clause(nodes, relationships)`. -/
def buildSingleMatchClause (nodes : List Node) (relationships : List Relationship) :
    Except String String :=
  let regular := relationships.filter (fun r => !r.optional)
  if regular = [] then
    if nodes ≠ [] then .ok ("MATCH " ++ joinSep ", " (allNodePatterns nodes))
    else .ok ""
  else
    let relPairs := regular.map (fun r => RelPair.mk r.node1 r.node2 r.type')
    match chainAll relPairs nodes (components relPairs) with
    | .error e => .error e
    | .ok patterns =>
        let standalone := allNodePatterns (nodes.filter (fun n => n.alias' ∉ involvedAliases relPairs))
        .ok ("MATCH " ++ joinSep ", " (patterns ++ standalone))

/-! ### Anchor extraction (`_extract_anchor_from_where`) -/

/-- Ordered-dict upsert: replace in place if the key exists, else append. -/
def upsertProp (l : List (String × JValue)) (k : String) (v : JValue) :
    List (String × JValue) :=
  match l with
  | [] => [(k, v)]
  | (k', v') :: rest => if k' = k then (k, v) :: rest else (k', v') :: upsertProp rest k v

/-- Outer ordered-dict upsert for `props_by_alias[alias][prop] = value`. -/
def upsertAliasProp (l : List (String × List (String × JValue))) (a k : String) (v : JValue) :
    List (String × List (String × JValue)) :=
  match l with
  | [] => [(a, [(k, v)])]
  | (a', ps) :: rest =>
      if a' = a then (a, upsertProp ps k v) :: rest
      else (a', ps) :: upsertAliasProp rest a k v

/-- The condition loop of `_extract_anchor_from_where` (lines 214–222). -/
def anchorPropsLoop (nodes : List Node) :
    List Condition → List (String × List (String × JValue)) →
    List (String × List (String × JValue))
  | [], acc => acc
  | c :: cs, acc =>
      let field := trimWs c.field
      if containsChar field '.' then
        let a := trimWs (splitDotPre field)
        let prop := stripBackticks (trimWs (splitDotPost field))
        if (nodeLookup nodes a).isSome && c.operator = "=" then
          anchorPropsLoop nodes cs (upsertAliasProp acc a prop c.value)
        else anchorPropsLoop nodes cs acc
      else anchorPropsLoop nodes cs acc

/-- `_extract_anchor_from_where(where, node_lookup)`: anchor alias, its label
and its equality-constrained properties, when exactly one alias is
constrained. -/
def extractAnchorFromWhere (w : Option WhereClause) (nodes : List Node) :
    Option (String × String × List (String × JValue)) :=
  match w with
  | none => none
  | some wc =>
      if wc.conditions = [] then none
      else
        match anchorPropsLoop nodes wc.conditions [] with
        | [(a, ps)] =>
            match nodeLookup nodes a with
            | some nd => some (a, nd.label, ps)
            | none => none
        | _ => none

/-- The alias part of one RETURN field (`_extract_return_aliases` loop body):
text before the first `' AS '`, stripped; its part before the first dot when
dotted. -/
def returnAliasOf (f : String) : String :=
  let part := trimWs ⟨takeBeforeAS f.data⟩
  if containsChar part '.' then trimWs (splitDotPre part) else part

/-- `_extract_return_aliases(ret)`. -/
def extractReturnAliases (ret : ReturnClause) : List String :=
  dedupFirstAux [] (ret.fields.map returnAliasOf)

/-! ### Optional-match components (`_build_optional_match_components`) -/

/-- One `OPTIONAL MATCH` line per connected component of the optional
relationships; the start alias prefers one already bound.  (The Python scans
`aliases_in_comp`, a set with unspecified iteration order; the model scans in
first-occurrence order.) -/
def buildOptLines (optPairs : List RelPair) (nodes : List Node) (bound : List String) :
    List (List Nat) → Except String (List String)
  | [] => .ok []
  | comp :: rest =>
      let compEdges := comp.map (fun i => optPairs.getD i default)
      let startAlias := (aliasOrder compEdges).find? (fun a => a ∈ bound)
      match chainComponent optPairs comp nodes startAlias with
      | .error e => .error e
      | .ok pattern =>
          match buildOptLines optPairs nodes bound rest with
          | .error e => .error e
          | .ok lines => .ok (("OPTIONAL MATCH " ++ pattern) :: lines)

/-- `_build_optional_match_components(nodes, optional_rels, bound_aliases)`. -/
def buildOptionalMatchComponents (nodes : List Node) (optionalRels : List Relationship)
    (bound : List String) : Except String (List String) :=
  let optPairs := optionalRels.map (fun r => RelPair.mk r.node1 r.node2 r.type')
  buildOptLines optPairs nodes bound (components optPairs)

/-! ### `AdvancedPatternBuilder.build_optimal_patterns` -/

/-- The fixed alias preference list of the anchor fallback (line 296). -/
def aliasPreferenceList : List String :=
  ["j", "Job", "c", "Candidate", "r", "Resume", "s", "Skill"]

/-- Lines 292–306: when there is no anchor from the WHERE clause, choose an
anchor alias from the RETURN clause. -/
def chosenReturnAlias (nodes : List Node) (ret : ReturnClause) : Option String :=
  let retAliases := (extractReturnAliases ret).filter (fun a => (nodeLookup nodes a).isSome)
  let uniqueRet := dedupFirstAux [] retAliases
  match aliasPreferenceList.find? (fun p => p ∈ uniqueRet) with
  | some p => some p
  | none => if uniqueRet.length = 1 then uniqueRet.head? else none

/-- Lines 278–283 of `build_optimal_patterns`: the required-match line (when
mandatory relationships exist) and the aliases it binds. -/
def requiredMatchStep (nodes : List Node) (relationships : List Relationship) :
    Except String (List String × List String) :=
  let regular := relationships.filter (fun r => !r.optional)
  if regular = [] then .ok ([], [])
  else
    match buildSingleMatchClause nodes relationships with
    | .error e => .error e
    | .ok m => .ok ((if m = "" then [] else [m]),
                    regular.flatMap (fun r => [r.node1, r.node2]))

/-- Lines 285–306 of `build_optimal_patterns`: the anchor line (only when no
mandatory relationship exists) and the alias it binds.  `regularEmpty` tells
whether the mandatory relationship set is empty; the `none` branch of the
inner lookup models the (unreachable) `KeyError`. -/
def anchorStep (nodes : List Node) (ret : ReturnClause)
    (anchorInfo : Option (String × String × List (String × JValue)))
    (regularEmpty : Bool) : Except String (List String × List String) :=
  if regularEmpty then
    match anchorInfo with
    | some (a, label, props) =>
        .ok (["MATCH " ++ fmtNodeWithProps a label props], [a])
    | none =>
        match chosenReturnAlias nodes ret with
        | some a =>
            match nodeLookup nodes a with
            | some nd => .ok (["MATCH " ++ ("(" ++ a ++ ":" ++ nd.label ++ ")")], [a])
            | none => .error ("'" ++ a ++ "'")
        | none => .ok ([], [])
  else .ok ([], [])

/-- `build_optimal_patterns` (lines 273–316). -/
def buildOptimalPatterns (nodes : List Node) (relationships : List Relationship)
    (ret : ReturnClause) (whereC : Option WhereClause) : Except String (List String) :=
  let regular := relationships.filter (fun r => !r.optional)
  let optionalRels := relationships.filter (fun r => r.optional)
  match requiredMatchStep nodes relationships with
  | .error e => .error e
  | .ok (p1, bound1) =>
      let anchorInfo := if regular = [] then extractAnchorFromWhere whereC nodes else none
      match anchorStep nodes ret anchorInfo (regular = []) with
      | .error e => .error e
      | .ok (p2, bound2) =>
          let bound := bound1 ++ bound2
          let step3 : Except String (List String) :=
            if optionalRels = [] then .ok []
            else buildOptionalMatchComponents nodes optionalRels bound
          match step3 with
          | .error e => .error e
          | .ok p3 =>
              let p4 :=
                if relationships.length = 0 ∧ anchorInfo = none ∧ bound = [] ∧ nodes ≠ [] then
                  ["MATCH " ++ joinSep ", " (allNodePatterns nodes)]
                else []
              .ok ((p1 ++ p2 ++ p3 ++ p4).filter (fun p => p ≠ ""))

/-- `build_advanced_match_clause` (lines 322–332): with an empty relationship
list it returns the plain combined node pattern directly, without consulting
the `AdvancedPatternBuilder`. -/
def buildAdvancedMatchClause (nodes : List Node) (relationships : List Relationship)
    (ret : ReturnClause) (whereC : Option WhereClause) : Except String String :=
  if relationships = [] then
    if nodes ≠ [] then .ok ("MATCH " ++ joinSep ", " (allNodePatterns nodes))
    else .ok ""
  else
    match buildOptimalPatterns nodes relationships ret whereC with
    | .error e => .error e
    | .ok patterns => .ok (joinSep "\n" patterns)

/-! ### Clause renderers -/

/-- Value rendering of `build_where_clause`. -/
def condValue : JValue → String
  | .str s => "'" ++ s ++ "'"
  | .bool b => if b then "true" else "false"
  | .null => "null"
  | .int n => toString n

/-- `build_where_clause(where_clause)`. -/
def buildWhereClause (w : WhereClause) : String :=
  "WHERE " ++ joinSep (" " ++ w.type' ++ " ")
    (w.conditions.map fun c => c.field ++ " " ++ c.operator ++ " " ++ condValue c.value)

/-- `build_with_clause(with_clause)`. -/
def buildWithClause (w : WithClause) : String :=
  let parts := w.fields ++
    (match w.aggregations with
     | some aggs => aggs.map (fun a => a.function' ++ "(" ++ a.field ++ ") AS " ++ a.alias')
     | none => [])
  "WITH " ++ joinSep ", " parts

/-- `build_return_clause(return_clause)`. -/
def buildReturnClause (r : ReturnClause) : String :=
  "RETURN" ++ (if r.distinct then " DISTINCT" else "") ++ " " ++ joinSep ", " r.fields

/-- `build_orderby_clause(orderby_clause)`. -/
def buildOrderByClause (o : OrderByClause) : String :=
  "ORDER BY " ++ o.field ++ " " ++ o.direction

/-- `build_limit_clause(limit)`. -/
def buildLimitClause (n : Int) : String :=
  "LIMIT " ++ toString n

/-! ### Compiler entry point (`convert_json_to_cypher`) -/

/-- The validation phase (lines 382–385), run before any rendering. -/
def validationPhase (q : CypherQuery) : Except String Unit :=
  match validateAliases q.nodes q.relationships with
  | .error e => .error e
  | .ok _ =>
      match (match q.whereClause with
             | some w => validateConditions w.conditions
             | none => .ok ()) with
      | .error e => .error e
      | .ok _ => validateFieldSyntax q.returnClause.fields

/-- The match-section construction (lines 389–397). -/
def buildMatchSection (q : CypherQuery) (optimize : Bool) : Except String String :=
  if optimize then buildAdvancedMatchClause q.nodes q.relationships q.returnClause q.whereClause
  else buildSingleMatchClause q.nodes q.relationships

/-- The `query_parts` list (lines 399–416), in the source's append order:
match section (if non-empty), WHERE, WITH, legacy secondary WHERE, RETURN,
ORDER BY, LIMIT. -/
def renderParts (q : CypherQuery) (m : String) : List String :=
  (if m ≠ "" then [m] else []) ++
  (match q.whereClause with | some w => [buildWhereClause w] | none => []) ++
  (match q.with_ with | some w => [buildWithClause w] | none => []) ++
  (match q.withClause with | some w => [buildWhereClause w] | none => []) ++
  [buildReturnClause q.returnClause] ++
  (match q.orderBy with | some o => [buildOrderByClause o] | none => []) ++
  (match q.limit with | some l => [buildLimitClause l] | none => [])

/-- The body of the `try` block of `convert_json_to_cypher` for an
already-bound request. -/
def compileQuery (q : CypherQuery) (optimize : Bool) : Except String String :=
  match validationPhase q with
  | .error e => .error e
  | .ok _ =>
      match buildMatchSection q optimize with
      | .error e => .error e
      | .ok m => .ok (joinSep "\n" (renderParts q m))

/-- The failure marker prepended by the `except` handler. -/
def errMarker : String := "❌ Error: "

/-- `convert_json_to_cypher(json_data, optimize)`: the input is the outcome of
the (external) structural binding of the JSON document; every failure inside
the `try` block is caught and returned as a single marker-prefixed string. -/
def convertJsonToCypher (input : Except String CypherQuery) (optimize : Bool) : String :=
  match input with
  | .error e => errMarker ++ e
  | .ok q =>
      match compileQuery q optimize with
      | .error e => errMarker ++ e
      | .ok s => s

deriving instance DecidableEq for Except

/-! ### Spec-side predicates (used to state claims about the validator)

These two follow the specification's words, to be compared with the code's
`validateFieldSyntax`; they are deliberately distinct from the source
functions. -/

/-- The spec's "contains whitespace" for a field name. -/
def specContainsWhitespace (s : String) : Bool :=
  s.data.any Char.isWhitespace

/-- The spec's "contains at least one backtick-quoted segment": a pair of
backtick characters occurs in the string. -/
def specHasBacktickSegment (s : String) : Bool :=
  2 ≤ s.data.count backtickChar

/-! ### Concrete requests used by the claims -/

/-- C1's scenario: no relationships, filter `a.name = 'X'`. -/
def c1Request : CypherQuery :=
  ⟨[⟨"Label", "a"⟩], [], some ⟨"AND", [⟨"a.name", "=", JValue.str "X"⟩]⟩,
   none, none, ⟨["a"], false⟩, none, none⟩

/-- C1's scenario with one optional relationship added, the shape that does
reach the anchor selector. -/
def c1OptRequest : CypherQuery :=
  ⟨[⟨"Label", "a"⟩, ⟨"B", "b"⟩], [⟨"a", "b", "KNOWS", true⟩],
   some ⟨"AND", [⟨"a.name", "=", JValue.str "X"⟩]⟩,
   none, none, ⟨["a"], false⟩, none, none⟩

/-- A three-relationship cycle `a–b–c–a`, all mandatory. -/
def c2CycleEdges : List RelPair :=
  [⟨"a", "b", "R"⟩, ⟨"b", "c", "S"⟩, ⟨"c", "a", "T"⟩]

/-- The request holding the cycle `c2CycleEdges`. -/
def c2Request : CypherQuery :=
  ⟨[⟨"A", "a"⟩, ⟨"B", "b"⟩, ⟨"C", "c"⟩],
   [⟨"a", "b", "R", false⟩, ⟨"b", "c", "S", false⟩, ⟨"c", "a", "T", false⟩],
   none, none, none, ⟨["a"], false⟩, none, none⟩

/-- C3's scenario: nodes `a b c`, mandatory `(a,b,R)`, optional `(b,c,S)`. -/
def c3Request : CypherQuery :=
  ⟨[⟨"A", "a"⟩, ⟨"B", "b"⟩, ⟨"C", "c"⟩],
   [⟨"a", "b", "R", false⟩, ⟨"b", "c", "S", true⟩],
   none, none, none, ⟨["a"], false⟩, none, none⟩

/-- A request whose only relationship has an undeclared `node1` alias. -/
def c7Request : CypherQuery :=
  ⟨[⟨"A", "a"⟩], [⟨"x", "a", "R", false⟩], none, none, none, ⟨["a"], false⟩, none, none⟩

/-- A request exercising every optional clause. -/
def c9Request : CypherQuery :=
  ⟨[⟨"Label", "a"⟩], [], some ⟨"AND", [⟨"a.x", "=", JValue.int 1⟩]⟩,
   some ⟨["a"], some [⟨"count", "a", "n"⟩]⟩,
   some ⟨"OR", [⟨"n", ">", JValue.int 2⟩]⟩,
   ⟨["n"], true⟩, some ⟨"n", "DESC"⟩, some 5⟩

/-- A request whose WITH fields and legacy secondary-filter fields contain
spaces without backticks. -/
def c10Request : CypherQuery :=
  ⟨[⟨"Label", "a"⟩], [], none,
   some ⟨["bad field"], none⟩,
   some ⟨"AND", [⟨"legacy bad", "=", JValue.str "v"⟩]⟩,
   ⟨["a"], false⟩, none, none⟩

/-! ### Claim C1 -/

/-- Claim C1, counterexample: on the claim's own scenario — no relationships,
filter `a.name = 'X'` on the single declared alias — optimized compilation
emits the plain match line `MATCH (a:Label)`, not the claimed
`MATCH (a:Label {name: 'X'})`: `build_advanced_match_clause` returns the
combined bare node pattern whenever the relationship list is empty, without
consulting the anchor extractor. -/
theorem c1_counterexample :
    buildAdvancedMatchClause c1Request.nodes c1Request.relationships
        c1Request.returnClause c1Request.whereClause = .ok "MATCH (a:Label)" ∧
    convertJsonToCypher (.ok c1Request) true =
      "MATCH (a:Label)\nWHERE a.name = 'X'\nRETURN a" ∧
    "MATCH (a:Label)" ≠ "MATCH (a:Label \x7bname: 'X'\x7d)" := by
  exact ⟨by decide, by decide, by decide⟩

/-- Claim C1 as amended: the equality-anchor inlining fires only when the
relationship set is non-empty but contains no mandatory relationship.  With
one optional relationship added to the scenario, the first emitted match line
is the anchor node with its equality-constrained property inlined,
`MATCH (a:Label {name: 'X'})`; with no relationships at all the match line
lists the nodes without inlined properties. -/
theorem c1_amended :
    buildAdvancedMatchClause c1OptRequest.nodes c1OptRequest.relationships
        c1OptRequest.returnClause c1OptRequest.whereClause =
      .ok ("MATCH (a:Label \x7bname: 'X'\x7d)\nOPTIONAL MATCH (a:Label)-[:KNOWS]->(b:B)") ∧
    convertJsonToCypher (.ok c1Request) true =
      "MATCH (a:Label)\nWHERE a.name = 'X'\nRETURN a" := by
  exact ⟨by decide, by decide⟩

/-! ### Claim C2 -/

/-- Claim C2: the code does **not** fall back to a first-encountered alias on
a cycle.  For the cycle `a–b–c–a` no alias has degree 1, `next(...)`'s default
binds `start` to the edge list itself, and `_fmt_node` then raises
`TypeError: unhashable type: 'list'`; compilation returns the error string
instead of a pattern.  The theorem evaluates the embedded code at the failing
input. -/
theorem c2_cycle_crash :
    startOf c2CycleEdges none = none ∧
    chainComponent c2CycleEdges [0, 1, 2] c2Request.nodes none =
      .error "unhashable type: 'list'" ∧
    convertJsonToCypher (.ok c2Request) true = errMarker ++ "unhashable type: 'list'" := by
  exact ⟨by decide, by decide, by decide⟩

/-! ### Claim C3 -/

/-- Claim C3, counterexample: on the claim's scenario the required match line
is `MATCH (a:A)-[:R]->(b:B), (c:C)` — node `c`, touched only by the optional
relationship, is appended standalone because `_build_single_match_clause`
treats every node not touched by a **mandatory** relationship as standalone —
so the output differs from the claimed two lines. -/
theorem c3_counterexample :
    buildAdvancedMatchClause c3Request.nodes c3Request.relationships
        c3Request.returnClause c3Request.whereClause =
      .ok ("MATCH (a:A)-[:R]->(b:B), (c:C)\nOPTIONAL MATCH (b:B)-[:S]->(c:C)") ∧
    "MATCH (a:A)-[:R]->(b:B), (c:C)\nOPTIONAL MATCH (b:B)-[:S]->(c:C)" ≠
      "MATCH (a:A)-[:R]->(b:B)\nOPTIONAL MATCH (b:B)-[:S]->(c:C)" := by
  exact ⟨by decide, by decide⟩

/-- Claim C3 as amended: optimized compilation of the scenario produces
exactly two pattern lines — the required match `MATCH (a:A)-[:R]->(b:B), (c:C)`
(chaining `a`→`b`, plus `c` rendered standalone since no mandatory
relationship touches it), followed by `OPTIONAL MATCH (b:B)-[:S]->(c:C)`
whose chain starts at the already-bound alias `b`. -/
theorem c3_amended :
    convertJsonToCypher (.ok c3Request) true =
      "MATCH (a:A)-[:R]->(b:B), (c:C)\nOPTIONAL MATCH (b:B)-[:S]->(c:C)\nRETURN a" := by
  decide

/-! ### Claim C7 -/

/-- `validate_aliases` on a relationship list containing a missing `node1`
alias returns the referential-integrity error of the first offending
endpoint. -/
theorem validateAliasesGo_error_of_missing (aliases : List String) :
    ∀ rels : List Relationship, (∃ r ∈ rels, r.node1 ∉ aliases) →
    ∃ a, validateAliasesGo aliases rels =
        .error ("Relationship node1 alias '" ++ a ++ "' not found in nodes.") ∨
      validateAliasesGo aliases rels =
        .error ("Relationship node2 alias '" ++ a ++ "' not found in nodes.") := by
  intro rels
  induction rels with
  | nil => rintro ⟨r, hr, -⟩; exact absurd hr (List.not_mem_nil r)
  | cons r rs ih =>
      rintro ⟨r', hr', hmiss⟩
      by_cases h1 : r.node1 ∈ aliases
      · by_cases h2 : r.node2 ∈ aliases
        · have hrs : r' ∈ rs := by
            rcases List.mem_cons.mp hr' with h | h
            · exact absurd (h ▸ h1) hmiss
            · exact h
          obtain ⟨a, ha⟩ := ih ⟨r', hrs, hmiss⟩
          refine ⟨a, ?_⟩
          simpa [validateAliasesGo, h1, h2] using ha
        · exact ⟨r.node2, Or.inr (by simp [validateAliasesGo, h1, h2])⟩
      · exact ⟨r.node1, Or.inl (by simp [validateAliasesGo, h1])⟩

/-- Claim C7: a request containing a relationship whose `node1` alias is
absent from the declared node set always compiles to a single
referential-integrity error string (the marker plus the `validate_aliases`
message of the first offending endpoint), with no match clause: validation
runs before any rendering and its failure short-circuits the pipeline. -/
theorem c7_missing_node1 (q : CypherQuery) (opt : Bool)
    (h : ∃ r ∈ q.relationships, r.node1 ∉ q.nodes.map (·.alias')) :
    ∃ a, convertJsonToCypher (.ok q) opt =
        errMarker ++ ("Relationship node1 alias '" ++ a ++ "' not found in nodes.") ∨
      convertJsonToCypher (.ok q) opt =
        errMarker ++ ("Relationship node2 alias '" ++ a ++ "' not found in nodes.") := by
  obtain ⟨a, ha⟩ := validateAliasesGo_error_of_missing (q.nodes.map (·.alias')) q.relationships h
  refine ⟨a, ?_⟩
  rcases ha with ha | ha
  · exact Or.inl (by simp [convertJsonToCypher, compileQuery, validationPhase, validateAliases, ha])
  · exact Or.inr (by simp [convertJsonToCypher, compileQuery, validationPhase, validateAliases, ha])

/-- Witness for C7 at a concrete request. -/
theorem c7_missing_node1_witness :
    (∃ r ∈ c7Request.relationships, r.node1 ∉ c7Request.nodes.map (·.alias')) ∧
    (∃ a, convertJsonToCypher (.ok c7Request) true =
        errMarker ++ ("Relationship node1 alias '" ++ a ++ "' not found in nodes.") ∨
      convertJsonToCypher (.ok c7Request) true =
        errMarker ++ ("Relationship node2 alias '" ++ a ++ "' not found in nodes.")) :=
  ⟨by decide, c7_missing_node1 c7Request true (by decide)⟩

/-! ### Claim C8 -/

/-- Claim C8, counterexample: the validator checks for a space character, not
for whitespace, and the backtick test is the single-line regex, not "some
backtick-quoted segment".  The field `"a\tb"` contains whitespace (a tab) and
no backtick segment, yet is accepted; the field `"a `b`\nc"` contains a
space and a backtick-quoted segment, yet is rejected. -/
theorem c8_counterexample :
    specContainsWhitespace "a\tb" = true ∧
    specHasBacktickSegment "a\tb" = false ∧
    validateFieldSyntax ["a\tb"] = .ok () ∧
    specContainsWhitespace "a `b`\nc" = true ∧
    specHasBacktickSegment "a `b`\nc" = true ∧
    validateFieldSyntax ["a `b`\nc"] =
      .error "Field 'a `b`\nc' contains spaces and is not backticked." := by
  refine ⟨by decide, by decide, by decide, by decide, by decide, by decide⟩

/-- Claim C8 as amended: `validate_field_syntax` fails for a field iff the
field contains a space character (U+0020) and does not match the source's
backtick regex `^.*`.*`.*$` (its content, up to one trailing newline, lies on
a single line and contains at least two backticks).  In particular every field
without a space is accepted. -/
theorem c8_amended (f : String) :
    (∃ e, validateFieldSyntax [f] = .error e) ↔
      (containsChar f ' ' = true ∧ reBacktickMatch f = false) := by
  constructor
  · rintro ⟨e, he⟩
    by_cases h : containsChar f ' ' && !reBacktickMatch f
    · constructor
      · exact (Bool.and_eq_true_iff.mp h).1
      · simpa using (Bool.and_eq_true_iff.mp h).2
    · simp [validateFieldSyntax, h] at he
  · rintro ⟨h1, h2⟩
    refine ⟨"Field '" ++ f ++ "' contains spaces and is not backticked.", ?_⟩
    simp [validateFieldSyntax, h1, h2]

/-! ### Claim C10 -/

/-- Claim C10: neither the validation phase nor the match-section assembly
depends on the projection-intermediate (`with`) clause or the legacy
secondary filter (`withClause`) — field-syntax validation touches only the
primary filter's condition fields and the RETURN fields — and a concrete
request carrying space-without-backtick fields in both unvalidated places
compiles successfully, rendering them verbatim. -/
theorem c10_unvalidated_fields :
    (∀ (nodes : List Node) (rels : List Relationship) (wc : Option WhereClause)
       (w w' : Option WithClause) (lw lw' : Option WhereClause) (ret : ReturnClause)
       (ob : Option OrderByClause) (lim : Option Int) (opt : Bool),
       validationPhase ⟨nodes, rels, wc, w, lw, ret, ob, lim⟩ =
         validationPhase ⟨nodes, rels, wc, w', lw', ret, ob, lim⟩ ∧
       buildMatchSection ⟨nodes, rels, wc, w, lw, ret, ob, lim⟩ opt =
         buildMatchSection ⟨nodes, rels, wc, w', lw', ret, ob, lim⟩ opt) ∧
    containsChar "bad field" ' ' = true ∧
    specHasBacktickSegment "bad field" = false ∧
    containsChar "legacy bad" ' ' = true ∧
    specHasBacktickSegment "legacy bad" = false ∧
    convertJsonToCypher (.ok c10Request) true =
      "MATCH (a:Label)\nWITH bad field\nWHERE legacy bad = 'v'\nRETURN a" := by
  refine ⟨fun _ _ _ _ _ _ _ _ _ _ _ => ⟨rfl, rfl⟩, by decide, by decide, by decide, by decide, by decide⟩

/-! ### Claim C9 -/

/-- Claim C9: for every request whose validation and match-section assembly
succeed, the entry point returns the newline-join of the clauses in the fixed
order match section (when non-empty), WHERE, WITH, legacy secondary WHERE,
RETURN, ORDER BY, LIMIT — absent optional clauses contributing no line. -/
theorem c9_clause_order (q : CypherQuery) (opt : Bool) (m : String)
    (h1 : validationPhase q = .ok ()) (h2 : buildMatchSection q opt = .ok m) :
    convertJsonToCypher (.ok q) opt = joinSep "\n"
      ((if m ≠ "" then [m] else []) ++
       (match q.whereClause with | some w => [buildWhereClause w] | none => []) ++
       (match q.with_ with | some w => [buildWithClause w] | none => []) ++
       (match q.withClause with | some w => [buildWhereClause w] | none => []) ++
       [buildReturnClause q.returnClause] ++
       (match q.orderBy with | some o => [buildOrderByClause o] | none => []) ++
       (match q.limit with | some l => [buildLimitClause l] | none => [])) := by
  simp [convertJsonToCypher, compileQuery, h1, h2, renderParts]

/-- Witness for C9 at a request exercising every clause. -/
theorem c9_clause_order_witness :
    validationPhase c9Request = .ok () ∧
    buildMatchSection c9Request true = .ok "MATCH (a:Label)" ∧
    convertJsonToCypher (.ok c9Request) true = joinSep "\n"
      ((if "MATCH (a:Label)" ≠ "" then ["MATCH (a:Label)"] else []) ++
       (match c9Request.whereClause with | some w => [buildWhereClause w] | none => []) ++
       (match c9Request.with_ with | some w => [buildWithClause w] | none => []) ++
       (match c9Request.withClause with | some w => [buildWhereClause w] | none => []) ++
       [buildReturnClause c9Request.returnClause] ++
       (match c9Request.orderBy with | some o => [buildOrderByClause o] | none => []) ++
       (match c9Request.limit with | some l => [buildLimitClause l] | none => [])) ∧
    convertJsonToCypher (.ok c9Request) true =
      "MATCH (a:Label)\nWHERE a.x = 1\nWITH a, count(a) AS n\nWHERE n > 2\nRETURN DISTINCT n\nORDER BY n DESC\nLIMIT 5" :=
  ⟨by decide, by decide, c9_clause_order c9Request true "MATCH (a:Label)" (by decide) (by decide),
   by decide⟩

/-! ### Claim C4: the chain builder on simple-path components -/

/-- Edge `e` joins aliases `x` and `y` (in either stored orientation). -/
def connects (e : RelPair) (x y : String) : Prop :=
  (e.node1 = x ∧ e.node2 = y) ∨ (e.node1 = y ∧ e.node2 = x)

/-- `Aligned vs es`: the edges `es`, in order, connect the consecutive
vertices of `vs`; with `vs.Nodup` this is exactly a simple-path component
listed along the path. -/
inductive Aligned : List String → List RelPair → Prop where
  | single (v : String) : Aligned [v] []
  | cons {v w : String} {vs : List String} {e : RelPair} {es : List RelPair} :
      connects e v w → Aligned (w :: vs) es → Aligned (v :: w :: vs) (e :: es)

/-- The not-yet-used edges of a walk state. -/
def unusedOf (st : List (RelPair × Bool)) : List RelPair :=
  st.filterMap (fun p => if p.2 then none else some p.1)

/-- `ArrowPairs tr segs`: the token list `segs` consists, for each edge of the
trace `tr` in order, of exactly one directional arrow token for that edge
(forward or reverse) followed by one node token. -/
def ArrowPairs : List RelPair → List String → Prop
  | [], [] => True
  | e :: es, a :: _ :: segs =>
      (a = "-[:" ++ e.type' ++ "]->" ∨ a = "<-[:" ++ e.type' ++ "]-") ∧ ArrowPairs es segs
  | _, _ => False

theorem unusedOf_map_false (es : List RelPair) :
    unusedOf (es.map (fun e => (e, false))) = es := by
  induction es with
  | nil => rfl
  | cons e es ih => simpa [unusedOf] using ih

theorem markFirst_unused (c : String) :
    ∀ st e st', markFirst c st = some (e, st') →
      incident c e = true ∧ (unusedOf st).Perm (e :: unusedOf st') := by
  intro st
  induction st with
  | nil => intro e st' h; simp [markFirst] at h
  | cons p rest ih =>
      intro e st' h
      obtain ⟨f, u⟩ := p
      by_cases hc : (!u && incident c f) = true
      · rw [markFirst, if_pos hc] at h
        obtain ⟨he, hst⟩ := Prod.mk.injEq .. ▸ Option.some.injEq .. ▸ h
        obtain ⟨hu, hinc⟩ := Bool.and_eq_true_iff.mp hc
        have hu' : u = false := by simpa using hu
        subst he hu'
        refine ⟨hinc, ?_⟩
        rw [← hst]
        simp [unusedOf]
      · rw [markFirst, if_neg hc] at h
        cases hm : markFirst c rest with
        | none => rw [hm] at h; simp at h
        | some pr =>
            obtain ⟨e', rest'⟩ := pr
            rw [hm] at h
            simp only [Option.some.injEq, Prod.mk.injEq] at h
            obtain ⟨he, hst⟩ := h
            obtain ⟨hinc, hperm⟩ := ih e' rest' hm
            subst he
            refine ⟨hinc, ?_⟩
            rw [← hst]
            cases u with
            | true => simpa [unusedOf] using hperm
            | false =>
                simp only [unusedOf, List.filterMap_cons] at *
                simpa using (hperm.cons f).trans (List.Perm.swap e' f (unusedOf rest'))

theorem endpointsFlat_cons (e : RelPair) (es : List RelPair) :
    endpointsFlat (e :: es) = e.node1 :: e.node2 :: endpointsFlat es := by
  simp [endpointsFlat]

theorem aligned_length : ∀ {vs : List String} {es : List RelPair},
    Aligned vs es → vs.length = es.length + 1 := by
  intro vs es h
  induction h with
  | single v => rfl
  | cons _ _ ih => simpa using ih

theorem aligned_endpoints_mem : ∀ {vs : List String} {es : List RelPair},
    Aligned vs es → es ≠ [] → ∀ a, (a ∈ endpointsFlat es ↔ a ∈ vs) := by
  intro vs es h
  induction h with
  | single v => intro hne; exact absurd rfl hne
  | @cons v w tl e es hconn htail ih =>
      intro _ a
      rw [endpointsFlat_cons]
      have hew : (a = e.node1 ∨ a = e.node2) ↔ (a = v ∨ a = w) := by
        rcases hconn with ⟨h1, h2⟩ | ⟨h1, h2⟩ <;> subst h1 <;> subst h2 <;> tauto
      cases es with
      | nil =>
          have htl : tl = [] := by
            have hlen := aligned_length htail
            simp only [List.length_cons, List.length_nil] at hlen
            exact List.length_eq_zero.mp (by omega)
          subst htl
          simp only [endpointsFlat, List.flatMap_nil, List.mem_cons, List.not_mem_nil, or_false]
          tauto
      | cons e' es' =>
          have ihm := ih (by simp) a
          simp only [List.mem_cons] at ihm ⊢
          tauto

theorem aligned_head_count {v w : String} {tl : List String} {e : RelPair} {es' : List RelPair}
    (hconn : connects e v w) (htail : Aligned (w :: tl) es')
    (hnd : (v :: w :: tl).Nodup) :
    (endpointsFlat (e :: es')).count v = 1 := by
  have hvw : v ≠ w := by
    intro h
    exact (List.nodup_cons.mp hnd).1 (h ▸ List.mem_cons_self w tl)
  have hvtl : v ∉ w :: tl := (List.nodup_cons.mp hnd).1
  have htailcount : (endpointsFlat es').count v = 0 := by
    cases es' with
    | nil => rfl
    | cons f fs =>
        refine List.count_eq_zero.mpr ?_
        intro hv
        exact hvtl ((aligned_endpoints_mem htail (by simp) v).mp hv)
  rw [endpointsFlat_cons]
  rcases hconn with ⟨h1, h2⟩ | ⟨h1, h2⟩ <;> subst h1 <;> subst h2 <;>
    simp [List.count_cons, htailcount, hvw, Ne.symm hvw]

theorem mem_dedupFirstAux : ∀ (l seen : List String) (a : String),
    a ∈ dedupFirstAux seen l ↔ a ∈ l ∧ a ∉ seen := by
  intro l
  induction l with
  | nil => intro seen a; simp [dedupFirstAux]
  | cons x xs ih =>
      intro seen a
      by_cases hx : x ∈ seen
      · rw [dedupFirstAux, if_pos hx, ih]
        constructor
        · rintro ⟨h1, h2⟩; exact ⟨List.mem_cons_of_mem x h1, h2⟩
        · rintro ⟨h1, h2⟩
          rcases List.mem_cons.mp h1 with h | h
          · exact absurd (h ▸ hx) h2
          · exact ⟨h, h2⟩
      · rw [dedupFirstAux, if_neg hx]
        by_cases hax : a = x
        · subst hax; simp [hx]
        · simp only [List.mem_cons, ih]
          tauto

theorem nodup_dedupFirstAux : ∀ (l seen : List String), (dedupFirstAux seen l).Nodup := by
  intro l
  induction l with
  | nil => intro seen; simp [dedupFirstAux]
  | cons x xs ih =>
      intro seen
      by_cases hx : x ∈ seen
      · rw [dedupFirstAux, if_pos hx]; exact ih seen
      · rw [dedupFirstAux, if_neg hx]
        refine List.nodup_cons.mpr ⟨?_, ih (x :: seen)⟩
        intro hmem
        exact ((mem_dedupFirstAux xs (x :: seen) x).mp hmem).2 (List.mem_cons_self x seen)

theorem mem_aliasOrder (es : List RelPair) (a : String) :
    a ∈ aliasOrder es ↔ a ∈ endpointsFlat es := by
  rw [aliasOrder, mem_dedupFirstAux]
  simp

/-- Whatever the walk does, a `chained` outcome with fuel equal to the number
of unused edges uses every unused edge exactly once (the trace is a
permutation of the unused edges) and emits exactly one directional arrow
token, followed by one node token, per traced edge. -/
theorem chainLoop_chained (nodes : List Node) :
    ∀ (fuel : Nat) (st : List (RelPair × Bool)) (c : String) (segs : List String)
      (tr : List RelPair),
      chainLoop nodes fuel st c = .chained segs tr →
      fuel = (unusedOf st).length →
      tr.Perm (unusedOf st) ∧ ArrowPairs tr segs := by
  intro fuel
  induction fuel with
  | zero =>
      intro st c segs tr h hl
      rw [chainLoop] at h
      obtain ⟨hs, ht⟩ := ChainOut.chained.injEq .. ▸ h
      have hnil : unusedOf st = [] := List.length_eq_zero.mp hl.symm
      rw [← hs, ← ht, hnil]
      exact ⟨List.Perm.refl [], trivial⟩
  | succ fuel ih =>
      intro st c segs tr h hl
      cases hm : markFirst c st with
      | none => rw [chainLoop, hm] at h; exact absurd h (by simp)
      | some pr =>
          obtain ⟨e, st'⟩ := pr
          simp only [chainLoop, hm] at h
          cases hrec : chainLoop nodes fuel st' (if e.node1 = c then e.node2 else e.node1) with
          | fallback => rw [hrec] at h; exact absurd h (by simp)
          | chained segs' tr' =>
              rw [hrec] at h
              simp only [ChainOut.chained.injEq] at h
              obtain ⟨hsegs, htr⟩ := h
              obtain ⟨hinc, hperm⟩ := markFirst_unused c st e st' hm
              have hlen : fuel = (unusedOf st').length := by
                have h1 := hperm.length_eq
                simp only [List.length_cons] at h1
                omega
              obtain ⟨hp, ha⟩ := ih st' _ segs' tr' hrec hlen
              subst hsegs htr
              constructor
              · exact (hp.cons e).trans hperm.symm
              · by_cases hd : e.node1 = c <;> simp [ArrowPairs, hd, ha]

/-- In a simple-path component the first path vertex has degree 1, so the
start-alias selection of `_chain_component` always succeeds. -/
theorem startOf_isSome_of_path {vs : List String} {esA compEdges : List RelPair}
    (hal : Aligned vs esA) (hperm : compEdges.Perm esA)
    (hnd : vs.Nodup) (hlen : 2 ≤ vs.length) (pref : Option String) :
    (startOf compEdges pref).isSome := by
  obtain ⟨v, w, tl, hvs⟩ : ∃ v w tl, vs = v :: w :: tl := by
    cases vs with
    | nil => simp at hlen
    | cons v rest =>
        cases rest with
        | nil => simp at hlen
        | cons w tl => exact ⟨v, w, tl, rfl⟩
  subst hvs
  cases hal with
  | cons hconn htail =>
    rename_i e es'
    have hcount : (endpointsFlat (e :: es')).count v = 1 :=
      aligned_head_count hconn htail hnd
    have hq : (endpointsFlat compEdges).count v = 1 := by
      have hpf : (endpointsFlat compEdges).Perm (endpointsFlat (e :: es')) := by
        unfold endpointsFlat
        exact hperm.flatMap_right _
      rw [hpf.count_eq v]
      exact hcount
    have hvmem : v ∈ aliasOrder compEdges := by
      rw [mem_aliasOrder]
      exact List.count_pos_iff.mp (by omega)
    have hfind : ((aliasOrder compEdges).find? (fun a => degree compEdges a = 1)).isSome := by
      rw [List.find?_isSome]
      exact ⟨v, hvmem, by simp [degree, hq]⟩
    cases pref with
    | none => simpa [startOf] using hfind
    | some p =>
        by_cases hp : p ∈ aliasOrder compEdges
        · simp [startOf, hp]
        · simpa [startOf, hp] using hfind

/-- A simple-path component with `k` edges has exactly `k + 1` distinct
aliases. -/
theorem aliasOrder_length_of_path {vs : List String} {esA compEdges : List RelPair}
    (hal : Aligned vs esA) (hperm : compEdges.Perm esA)
    (hnd : vs.Nodup) (hlen : 2 ≤ vs.length) :
    (aliasOrder compEdges).length = compEdges.length + 1 := by
  have hesne : esA ≠ [] := by
    intro h
    have := aligned_length hal
    rw [h] at this
    simp at this
    omega
  have hmem : ∀ a, a ∈ aliasOrder compEdges ↔ a ∈ vs := by
    intro a
    rw [mem_aliasOrder]
    have hpf := hperm.flatMap_right (fun e => [e.node1, e.node2])
    constructor
    · intro h
      exact (aligned_endpoints_mem hal hesne a).mp (hpf.mem_iff.mp h)
    · intro h
      exact hpf.mem_iff.mpr ((aligned_endpoints_mem hal hesne a).mpr h)
  have hpv : (aliasOrder compEdges).Perm vs :=
    (List.perm_ext_iff_of_nodup (nodup_dedupFirstAux _ _) hnd).mpr hmem
  have h1 : (aliasOrder compEdges).length = vs.length := hpv.length_eq
  have h2 : vs.length = esA.length + 1 := aligned_length hal
  have h3 : compEdges.length = esA.length := hperm.length_eq
  omega

/-- Each fallback pattern is built from its edge: one forward arrow between
the edge's two rendered endpoints. -/
theorem fallbackPatterns_spec (nodes : List Node) :
    ∀ compEdges : List RelPair,
      List.Forall₂
        (fun e p => p = fmtNode e.node1 nodes ++ "-[:" ++ e.type' ++ "]->" ++ fmtNode e.node2 nodes)
        compEdges (fallbackPatterns compEdges nodes)
  | [] => .nil
  | _ :: es => .cons rfl (fallbackPatterns_spec nodes es)

/-- Claim C4: for every component forming a simple path (`Aligned` along
pairwise-distinct vertices, the component's edge list being any permutation of
the path edges) and any preferred start, `_chain_component`'s walk succeeds
(no crash).  Its outcome either is a chain whose trace uses every edge of the
component exactly once with exactly one arrow token (and one node token) per
edge — `N - 1` arrows for the component's `N = edges + 1` distinct aliases —
or is the fallback, which renders one single-arrow pattern per edge, again
using every edge exactly once. -/
theorem c4_simple_path_chain (vs : List String) (esA compEdges : List RelPair)
    (nodes : List Node) (pref : Option String)
    (hnd : vs.Nodup) (hlen : 2 ≤ vs.length)
    (hal : Aligned vs esA) (hperm : compEdges.Perm esA) :
    ∃ s out, chainRun compEdges nodes pref = some (s, out) ∧
      (aliasOrder compEdges).length = compEdges.length + 1 ∧
      ((∃ segs tr, out = .chained segs tr ∧ tr.Perm compEdges ∧ ArrowPairs tr segs) ∨
       (out = .fallback ∧
        List.Forall₂
          (fun e p => p = fmtNode e.node1 nodes ++ "-[:" ++ e.type' ++ "]->" ++ fmtNode e.node2 nodes)
          compEdges (fallbackPatterns compEdges nodes))) := by
  have hsome := startOf_isSome_of_path hal hperm hnd hlen pref
  obtain ⟨s, hs⟩ := Option.isSome_iff_exists.mp hsome
  refine ⟨s, chainLoop nodes compEdges.length (compEdges.map (fun e => (e, false))) s,
    by rw [chainRun, hs], aliasOrder_length_of_path hal hperm hnd hlen, ?_⟩
  cases hrun : chainLoop nodes compEdges.length (compEdges.map (fun e => (e, false))) s with
  | chained segs tr =>
      obtain ⟨hp, ha⟩ := chainLoop_chained nodes compEdges.length _ s segs tr hrun
        (by rw [unusedOf_map_false])
      exact Or.inl ⟨segs, tr, rfl, by rwa [unusedOf_map_false] at hp, ha⟩
  | fallback => exact Or.inr ⟨rfl, fallbackPatterns_spec nodes compEdges⟩

/-- Witness for C4: the path `a —R→ b ←S— c` (second edge stored reversed),
with the component's edge list permuted relative to the path order. -/
theorem c4_simple_path_chain_witness :
    (["a", "b", "c"] : List String).Nodup ∧
    2 ≤ (["a", "b", "c"] : List String).length ∧
    Aligned ["a", "b", "c"] [⟨"a", "b", "R"⟩, ⟨"c", "b", "S"⟩] ∧
    List.Perm [RelPair.mk "c" "b" "S", RelPair.mk "a" "b" "R"]
      [RelPair.mk "a" "b" "R", RelPair.mk "c" "b" "S"] ∧
    (∃ s out,
      chainRun [RelPair.mk "c" "b" "S", RelPair.mk "a" "b" "R"] [] none = some (s, out) ∧
      (aliasOrder [RelPair.mk "c" "b" "S", RelPair.mk "a" "b" "R"]).length =
        ([RelPair.mk "c" "b" "S", RelPair.mk "a" "b" "R"] : List RelPair).length + 1 ∧
      ((∃ segs tr, out = .chained segs tr ∧
          tr.Perm [RelPair.mk "c" "b" "S", RelPair.mk "a" "b" "R"] ∧ ArrowPairs tr segs) ∨
       (out = .fallback ∧
        List.Forall₂
          (fun e p => p = fmtNode e.node1 [] ++ "-[:" ++ e.type' ++ "]->" ++ fmtNode e.node2 [])
          [RelPair.mk "c" "b" "S", RelPair.mk "a" "b" "R"]
          (fallbackPatterns [RelPair.mk "c" "b" "S", RelPair.mk "a" "b" "R"] [])))) :=
  ⟨by decide, by decide,
   Aligned.cons (Or.inl ⟨rfl, rfl⟩) (Aligned.cons (Or.inr ⟨rfl, rfl⟩) (Aligned.single "c")),
   List.Perm.swap (RelPair.mk "a" "b" "R") (RelPair.mk "c" "b" "S") [],
   c4_simple_path_chain ["a", "b", "c"] [⟨"a", "b", "R"⟩, ⟨"c", "b", "S"⟩]
     [⟨"c", "b", "S"⟩, ⟨"a", "b", "R"⟩] [] none (by decide) (by decide)
     (Aligned.cons (Or.inl ⟨rfl, rfl⟩) (Aligned.cons (Or.inr ⟨rfl, rfl⟩) (Aligned.single "c")))
     (List.Perm.swap (RelPair.mk "a" "b" "R") (RelPair.mk "c" "b" "S") [])⟩

/-! ### Claim C5: the connectivity analyzer returns a closed partition -/

/-- Number of not-yet-seen indices below `n`. -/
def unseenCount (n : Nat) (seen : List Nat) : Nat :=
  ((List.range n).filter (fun x => decide (x ∉ seen))).length

theorem filter_length_split {α : Type} (p q : α → Bool) :
    ∀ l : List α,
      (l.filter p).length =
        (l.filter (fun a => q a && p a)).length +
          (l.filter (fun a => !q a && p a)).length := by
  intro l
  induction l with
  | nil => rfl
  | cons x xs ih =>
      by_cases hp : p x
      · by_cases hq : q x <;> simp [List.filter_cons, hp, hq, ih] <;> omega
      · simp [List.filter_cons, hp, ih]

theorem unseenCount_step (adj : Nat → Nat → Bool) (n u : Nat) (seen : List Nat) :
    unseenCount n (seen ++ (List.range n).filter (fun v => adj u v && decide (v ∉ seen))) +
        ((List.range n).filter (fun v => adj u v && decide (v ∉ seen))).length =
      unseenCount n seen := by
  have hsplit := filter_length_split (fun x => decide (x ∉ seen)) (fun x => adj u x) (List.range n)
  have hcongr :
      (List.range n).filter
          (fun x => decide (x ∉ seen ++ (List.range n).filter (fun v => adj u v && decide (v ∉ seen)))) =
        (List.range n).filter (fun x => !adj u x && decide (x ∉ seen)) := by
    refine List.filter_congr ?_
    intro x hx
    by_cases hx1 : x ∈ seen
    · simp [hx1]
    · by_cases hx2 : adj u x
      · have hmem : x ∈ (List.range n).filter (fun v => adj u v && decide (v ∉ seen)) :=
          List.mem_filter.mpr ⟨hx, by simp [hx2, hx1]⟩
        have hxn : x < n := List.mem_range.mp hx
        simp [hx1, hx2, hmem, hxn]
      · have hmem : x ∉ (List.range n).filter (fun v => adj u v && decide (v ∉ seen)) := by
          intro hmem
          have := (List.mem_filter.mp hmem).2
          simp [hx2] at this
        simp [hx1, hx2, hmem]
  simp only [unseenCount]
  rw [hcongr]
  omega

theorem relAdj_lt {pairs : List RelPair} {i j : Nat} (h : relAdj pairs i j = true) :
    i < pairs.length ∧ j < pairs.length := by
  simp only [relAdj, Bool.and_eq_true, decide_eq_true_eq] at h
  exact ⟨h.1.1.1, h.1.1.2⟩

theorem relAdj_symm (pairs : List RelPair) (i j : Nat) :
    relAdj pairs i j = true ↔ relAdj pairs j i = true := by
  simp only [relAdj, sharesEndpoint, Bool.and_eq_true, decide_eq_true_eq, Bool.or_eq_true]
  constructor <;> rintro ⟨⟨⟨h1, h2⟩, h3⟩, h4⟩ <;>
    refine ⟨⟨⟨h2, h1⟩, Ne.symm h3⟩, ?_⟩ <;>
    rcases h4 with ((h | h) | h) | h
  · exact Or.inl (Or.inl (Or.inl h.symm))
  · exact Or.inl (Or.inr h.symm)
  · exact Or.inl (Or.inl (Or.inr h.symm))
  · exact Or.inr h.symm
  · exact Or.inl (Or.inl (Or.inl h.symm))
  · exact Or.inl (Or.inr h.symm)
  · exact Or.inl (Or.inl (Or.inr h.symm))
  · exact Or.inr h.symm

/-- Full functional specification of the BFS loop: with enough fuel and the
stated invariants, it pops exactly the reachable-via-enqueue indices `nc`,
the final seen list is (a permutation of) the old one plus `nc`, seen only
grows, and every neighbour of a popped index ends up seen. -/
theorem bfs_spec (adj : Nat → Nat → Bool) (n : Nat)
    (hadjb : ∀ u v, adj u v = true → u < n ∧ v < n) :
    ∀ (fuel : Nat) (queue seen comp base : List Nat),
      queue.length + unseenCount n seen ≤ fuel →
      seen.Perm (base ++ comp ++ queue) →
      seen.Nodup →
      (∀ x ∈ seen, x < n) →
      (∀ u ∈ comp, ∀ v, adj u v = true → v ∈ seen) →
      ∃ nc seenOut,
        bfs adj n fuel queue seen comp = (comp ++ nc, seenOut) ∧
        seenOut.Perm (base ++ comp ++ nc) ∧
        seenOut.Nodup ∧
        (∀ x ∈ seen, x ∈ seenOut) ∧
        (∀ x ∈ seenOut, x < n) ∧
        (∀ u ∈ comp ++ nc, ∀ v, adj u v = true → v ∈ seenOut) := by
  intro fuel
  induction fuel with
  | zero =>
      intro queue seen comp base hfuel hperm hnodup hlt hclos
      have hq : queue = [] := by
        have : queue.length = 0 := by omega
        exact List.length_eq_zero.mp this
      subst hq
      refine ⟨[], seen, by simp [bfs], ?_, hnodup, fun x hx => hx, hlt, ?_⟩
      · simpa using hperm
      · intro u hu v hv
        exact hclos u (by simpa using hu) v hv
  | succ fuel ih =>
      intro queue seen comp base hfuel hperm hnodup hlt hclos
      cases queue with
      | nil =>
          refine ⟨[], seen, by simp [bfs], ?_, hnodup, fun x hx => hx, hlt, ?_⟩
          · simpa using hperm
          · intro u hu v hv
            exact hclos u (by simpa using hu) v hv
      | cons u qrest =>
          have hstep : bfs adj n (fuel + 1) (u :: qrest) seen comp =
              bfs adj n fuel (qrest ++ (List.range n).filter (fun v => adj u v && decide (v ∉ seen)))
                (seen ++ (List.range n).filter (fun v => adj u v && decide (v ∉ seen)))
                (comp ++ [u]) := by
            rw [bfs]
          set nbrs := (List.range n).filter (fun v => adj u v && decide (v ∉ seen)) with hnbrs
          have hnbrs_nodup : nbrs.Nodup := (List.nodup_range n).filter _
          have hnbrs_lt : ∀ v ∈ nbrs, v < n := by
            intro v hv
            exact List.mem_range.mp (List.mem_filter.mp hv).1
          have hnbrs_unseen : ∀ v ∈ nbrs, v ∉ seen := by
            intro v hv
            have := (List.mem_filter.mp hv).2
            simp only [Bool.and_eq_true, decide_eq_true_eq] at this
            exact this.2
          have hnbrs_adj : ∀ v ∈ nbrs, adj u v = true := by
            intro v hv
            have := (List.mem_filter.mp hv).2
            simp only [Bool.and_eq_true, decide_eq_true_eq] at this
            exact this.1
          have hnbrs_complete : ∀ v, adj u v = true → v ∉ seen → v ∈ nbrs := by
            intro v hv hvs
            exact List.mem_filter.mpr ⟨List.mem_range.mpr (hadjb u v hv).2, by simp [hv, hvs]⟩
          have hcount := unseenCount_step adj n u seen
          rw [← hnbrs] at hcount
          have hfuel' : (qrest ++ nbrs).length + unseenCount n (seen ++ nbrs) ≤ fuel := by
            simp only [List.length_append, List.length_cons] at hfuel ⊢
            omega
          have hperm' : (seen ++ nbrs).Perm (base ++ (comp ++ [u]) ++ (qrest ++ nbrs)) := by
            have h1 := hperm.append_right nbrs
            have h2 : (base ++ comp ++ (u :: qrest)) ++ nbrs =
                base ++ (comp ++ [u]) ++ (qrest ++ nbrs) := by
              simp [List.append_assoc]
            rwa [h2] at h1
          have hnodup' : (seen ++ nbrs).Nodup :=
            hnodup.append hnbrs_nodup (fun a ha hb => hnbrs_unseen a hb ha)
          have hlt' : ∀ x ∈ seen ++ nbrs, x < n := by
            intro x hx
            rcases List.mem_append.mp hx with h | h
            · exact hlt x h
            · exact hnbrs_lt x h
          have hclos' : ∀ w ∈ comp ++ [u], ∀ v, adj w v = true → v ∈ seen ++ nbrs := by
            intro w hw v hv
            rcases List.mem_append.mp hw with h | h
            · exact List.mem_append_left nbrs (hclos w h v hv)
            · have hwu : w = u := by simpa using h
              subst hwu
              by_cases hvs : v ∈ seen
              · exact List.mem_append_left nbrs hvs
              · exact List.mem_append_right seen (hnbrs_complete v hv hvs)
          obtain ⟨nc', seenOut, hb, hp, hn, hm, hl, hc⟩ :=
            ih (qrest ++ nbrs) (seen ++ nbrs) (comp ++ [u]) base hfuel' hperm' hnodup' hlt' hclos'
          refine ⟨u :: nc', seenOut, ?_, ?_, hn, ?_, hl, ?_⟩
          · rw [hstep, hb]
            simp
          · have : base ++ (comp ++ [u]) ++ nc' = base ++ comp ++ (u :: nc') := by
              simp [List.append_assoc]
            rwa [this] at hp
          · intro x hx
            exact hm x (List.mem_append_left nbrs hx)
          · intro w hw v hv
            refine hc w ?_ v hv
            have : comp ++ u :: nc' = (comp ++ [u]) ++ nc' := by simp
            rwa [this] at hw

/-- Specification of the component-discovery loop: starting from pairwise
distinct, bounded, adjacency-closed `seen`, the components collected over
`idxs` are disjoint, cover every unseen index of `idxs`, stay below `n`, and
each is closed under the (symmetric) adjacency. -/
theorem componentsAux_spec (adj : Nat → Nat → Bool) (n : Nat)
    (hadjb : ∀ u v, adj u v = true → u < n ∧ v < n)
    (hsym : ∀ u v, adj u v = true ↔ adj v u = true) :
    ∀ (idxs seen : List Nat),
      seen.Nodup →
      (∀ x ∈ seen, x < n) →
      (∀ x ∈ idxs, x < n) →
      (∀ u ∈ seen, ∀ v, adj u v = true → v ∈ seen) →
      (componentsAux adj n idxs seen).flatten.Nodup ∧
      (∀ x ∈ (componentsAux adj n idxs seen).flatten, x < n ∧ x ∉ seen) ∧
      (∀ x ∈ idxs, x ∉ seen → x ∈ (componentsAux adj n idxs seen).flatten) ∧
      (∀ c ∈ componentsAux adj n idxs seen, ∀ u ∈ c, ∀ v, adj u v = true → v ∈ c) := by
  intro idxs
  induction idxs with
  | nil =>
      intro seen _ _ _ _
      refine ⟨by simp [componentsAux], by simp [componentsAux], by simp [componentsAux],
        by simp [componentsAux]⟩
  | cons i rest ih =>
      intro seen hnodup hlt hidxlt hclosed
      by_cases hi : i ∈ seen
      · have hrec := ih seen hnodup hlt (fun x hx => hidxlt x (List.mem_cons_of_mem i hx)) hclosed
        obtain ⟨ha, hb, hc, hd⟩ := hrec
        rw [componentsAux, if_pos hi]
        refine ⟨ha, hb, ?_, hd⟩
        intro x hx hxs
        rcases List.mem_cons.mp hx with h | h
        · exact absurd (h ▸ hi) hxs
        · exact hc x h hxs
      · have hin : i < n := hidxlt i (List.mem_cons_self i rest)
        have hfuel : ([i] : List Nat).length + unseenCount n (seen ++ [i]) ≤ n + 1 := by
          have := List.length_filter_le (fun x => decide (x ∉ seen ++ [i])) (List.range n)
          simp only [unseenCount, List.length_singleton]
          simp only [List.length_range] at this
          omega
        have hperm0 : (seen ++ [i]).Perm (seen ++ [] ++ [i]) := by simp
        have hnodup0 : (seen ++ [i]).Nodup := by
          refine hnodup.append (List.nodup_singleton i) ?_
          intro a ha hb
          have : a = i := by simpa using hb
          exact hi (this ▸ ha)
        have hlt0 : ∀ x ∈ seen ++ [i], x < n := by
          intro x hx
          rcases List.mem_append.mp hx with h | h
          · exact hlt x h
          · have : x = i := by simpa using h
            exact this ▸ hin
        obtain ⟨nc, seenOut, hb, hp, hn, hm, hl, hc⟩ :=
          bfs_spec adj n hadjb (n + 1) [i] (seen ++ [i]) [] seen hfuel hperm0 hnodup0 hlt0
            (by intro u hu; exact absurd hu (List.not_mem_nil u))
        have hcomps : componentsAux adj n (i :: rest) seen = nc :: componentsAux adj n rest seenOut := by
          rw [componentsAux, if_neg hi, hb]
          simp
        have hso : seenOut.Perm (seen ++ nc) := by simpa using hp
        have hsnodup : (seen ++ nc).Nodup := (hso.nodup_iff).mp hn
        have hncnodup : nc.Nodup := (List.nodup_append.mp hsnodup).2.1
        have hdisj : ∀ a ∈ nc, a ∉ seen := by
          intro a ha hs
          exact (List.nodup_append.mp hsnodup).2.2 hs ha
        have hmemOut : ∀ x, x ∈ seenOut ↔ x ∈ seen ∨ x ∈ nc := by
          intro x
          rw [hso.mem_iff]
          simp
        have hinc : i ∈ nc := by
          have : i ∈ seenOut := hm i (by simp)
          rcases (hmemOut i).mp this with h | h
          · exact absurd h hi
          · exact h
        have hsubOut : ∀ x ∈ seen, x ∈ seenOut := by
          intro x hx
          exact hm x (List.mem_append_left [i] hx)
        have hncClosed : ∀ u ∈ nc, ∀ v, adj u v = true → v ∈ nc := by
          intro u hu v hv
          have hvOut : v ∈ seenOut := hc u (by simpa using hu) v hv
          rcases (hmemOut v).mp hvOut with h | h
          · have : u ∈ seen := hclosed v h u ((hsym u v).mp hv)
            exact absurd this (hdisj u hu)
          · exact h
        have hOutClosed : ∀ u ∈ seenOut, ∀ v, adj u v = true → v ∈ seenOut := by
          intro u hu v hv
          rcases (hmemOut u).mp hu with h | h
          · exact hsubOut v (hclosed u h v hv)
          · exact hc u (by simpa using h) v hv
        have hrec := ih seenOut hn hl (fun x hx => hidxlt x (List.mem_cons_of_mem i hx)) hOutClosed
        obtain ⟨ha', hb', hc', hd'⟩ := hrec
        rw [hcomps]
        refine ⟨?_, ?_, ?_, ?_⟩
        · simp only [List.flatten_cons]
          refine hncnodup.append ha' ?_
          intro a hanc harest
          have : a ∉ seenOut := (hb' a harest).2
          exact this ((hmemOut a).mpr (Or.inr hanc))
        · intro x hx
          simp only [List.flatten_cons, List.mem_append] at hx
          rcases hx with h | h
          · exact ⟨hl x ((hmemOut x).mpr (Or.inr h)), hdisj x h⟩
          · obtain ⟨hxn, hxo⟩ := hb' x h
            exact ⟨hxn, fun hs => hxo (hsubOut x hs)⟩
        · intro x hx hxs
          simp only [List.flatten_cons, List.mem_append]
          rcases List.mem_cons.mp hx with h | h
          · exact Or.inl (h ▸ hinc)
          · by_cases hxo : x ∈ seenOut
            · rcases (hmemOut x).mp hxo with h' | h'
              · exact absurd h' hxs
              · exact Or.inl h'
            · exact Or.inr (hc' x h hxo)
        · intro c hcmem
          rcases List.mem_cons.mp hcmem with h | h
          · exact h ▸ hncClosed
          · exact hd' c h

/-- Claim C5: `_connected_components_on_rels` partitions the relationship
indices — their concatenation is a permutation of `0, …, len-1`, so every
index lies in exactly one component — and any two relationships connected by
a chain of shared endpoint aliases lie in the same component. -/
theorem c5_components_partition (pairs : List RelPair) :
    ((components pairs).flatten).Perm (List.range pairs.length) ∧
    (∀ i j, Relation.ReflTransGen (fun a b => relAdj pairs a b = true) i j →
      ∀ c ∈ components pairs, i ∈ c → j ∈ c) := by
  have hadjb : ∀ u v, relAdj pairs u v = true → u < pairs.length ∧ v < pairs.length :=
    fun u v h => relAdj_lt h
  have hsym : ∀ u v, relAdj pairs u v = true ↔ relAdj pairs v u = true :=
    fun u v => relAdj_symm pairs u v
  obtain ⟨ha, hb, hc, hd⟩ :=
    componentsAux_spec (relAdj pairs) pairs.length hadjb hsym (List.range pairs.length) []
      List.nodup_nil (by simp) (fun x hx => List.mem_range.mp hx) (by simp)
  constructor
  · refine (List.perm_ext_iff_of_nodup ha (List.nodup_range pairs.length)).mpr ?_
    intro a
    constructor
    · intro h
      exact List.mem_range.mpr (hb a h).1
    · intro h
      exact hc a h (List.not_mem_nil a)
  · intro i j hreach c hcmem hic
    induction hreach with
    | refl => exact hic
    | tail _ hstep ihr => exact hd c hcmem _ ihr _ hstep

/-- Witness for C5: relationships `(a,b)`, `(c,d)`, `(b,e)` — indices 0 and 2
share alias `b` and land in the same component `[0, 2]`; index 1 is alone. -/
theorem c5_components_partition_witness :
    ((components [⟨"a", "b", "R"⟩, ⟨"c", "d", "S"⟩, ⟨"b", "e", "T"⟩]).flatten).Perm
      (List.range 3) ∧
    relAdj [⟨"a", "b", "R"⟩, ⟨"c", "d", "S"⟩, ⟨"b", "e", "T"⟩] 0 2 = true ∧
    components [⟨"a", "b", "R"⟩, ⟨"c", "d", "S"⟩, ⟨"b", "e", "T"⟩] = [[0, 2], [1]] ∧
    (∀ c ∈ components [⟨"a", "b", "R"⟩, ⟨"c", "d", "S"⟩, ⟨"b", "e", "T"⟩],
      (0 : Nat) ∈ c → (2 : Nat) ∈ c) :=
  ⟨(c5_components_partition [⟨"a", "b", "R"⟩, ⟨"c", "d", "S"⟩, ⟨"b", "e", "T"⟩]).1,
   by decide, by decide,
   (c5_components_partition [⟨"a", "b", "R"⟩, ⟨"c", "d", "S"⟩, ⟨"b", "e", "T"⟩]).2 0 2
     (Relation.ReflTransGen.single (by decide))⟩

/-! ### Claim C6: the entry point returns text or a marker-prefixed error -/

/-- First character of a string. -/
def firstChar (s : String) : Option Char :=
  s.data.head?

theorem string_data_append (s t : String) : (s ++ t).data = s.data ++ t.data := rfl

theorem firstChar_append_of_ne_nil (s t : String) (h : s.data ≠ []) :
    firstChar (s ++ t) = firstChar s := by
  rw [firstChar, firstChar, string_data_append]
  cases hs : s.data with
  | nil => exact absurd hs h
  | cons c cs => simp

theorem joinSep_firstChar (sep x : String) (xs : List String) (h : x.data ≠ []) :
    firstChar (joinSep sep (x :: xs)) = firstChar x := by
  cases xs with
  | nil => rfl
  | cons y ys =>
      rw [joinSep]
      rw [firstChar_append_of_ne_nil _ _ (by rw [string_data_append]; simp [h])]
      exact firstChar_append_of_ne_nil x sep h

theorem match_prefix_data_ne_nil (t : String) : ("MATCH " ++ t).data ≠ [] := by
  rw [string_data_append]
  simp

theorem buildSingleMatchClause_shape (nodes : List Node) (rels : List Relationship)
    (m : String) (h : buildSingleMatchClause nodes rels = .ok m) :
    m = "" ∨ ∃ t, m = "MATCH " ++ t := by
  simp only [buildSingleMatchClause] at h
  split at h
  · split at h
    · exact Or.inr ⟨_, (Except.ok.injEq .. ▸ h).symm⟩
    · exact Or.inl (Except.ok.injEq .. ▸ h).symm
  · split at h
    · exact absurd h (by simp)
    · exact Or.inr ⟨_, (Except.ok.injEq .. ▸ h).symm⟩

theorem buildOptLines_shape (optPairs : List RelPair) (nodes : List Node) (bound : List String) :
    ∀ (comps : List (List Nat)) (lines : List String),
      buildOptLines optPairs nodes bound comps = .ok lines →
      ∀ p ∈ lines, ∃ t, p = "OPTIONAL MATCH " ++ t := by
  intro comps
  induction comps with
  | nil =>
      intro lines h p hp
      simp only [buildOptLines, Except.ok.injEq] at h
      subst h
      exact absurd hp (List.not_mem_nil p)
  | cons comp rest ih =>
      intro lines h p hp
      simp only [buildOptLines] at h
      split at h
      · exact absurd h (by simp)
      · split at h
        · exact absurd h (by simp)
        · simp only [Except.ok.injEq] at h
          subst h
          rcases List.mem_cons.mp hp with hpe | hpe
          · exact ⟨_, hpe⟩
          · exact ih _ (by assumption) p hpe

theorem requiredMatchStep_shape (nodes : List Node) (rels : List Relationship)
    (p1 bound1 : List String) (h : requiredMatchStep nodes rels = .ok (p1, bound1)) :
    ∀ p ∈ p1, ∃ t, p = "MATCH " ++ t := by
  intro p hp
  simp only [requiredMatchStep] at h
  split at h
  · simp only [Except.ok.injEq, Prod.mk.injEq] at h
    rw [← h.1] at hp
    exact absurd hp (List.not_mem_nil p)
  · split at h
    · exact absurd h (by simp)
    · rename_i m hm
      simp only [Except.ok.injEq, Prod.mk.injEq] at h
      rw [← h.1] at hp
      by_cases hme : m = ""
      · rw [if_pos hme] at hp
        exact absurd hp (List.not_mem_nil p)
      · rw [if_neg hme] at hp
        have hpm : p = m := by simpa using hp
        subst hpm
        rcases buildSingleMatchClause_shape nodes rels p hm with h' | h'
        · exact absurd h' hme
        · exact h'

theorem anchorStep_shape (nodes : List Node) (ret : ReturnClause)
    (anchorInfo : Option (String × String × List (String × JValue))) (b : Bool)
    (p2 bound2 : List String) (h : anchorStep nodes ret anchorInfo b = .ok (p2, bound2)) :
    ∀ p ∈ p2, ∃ t, p = "MATCH " ++ t := by
  intro p hp
  simp only [anchorStep] at h
  split at h
  · split at h
    · simp only [Except.ok.injEq, Prod.mk.injEq] at h
      rw [← h.1] at hp
      exact ⟨_, by simpa using hp⟩
    · split at h
      · split at h
        · simp only [Except.ok.injEq, Prod.mk.injEq] at h
          rw [← h.1] at hp
          exact ⟨_, by simpa using hp⟩
        · exact absurd h (by simp)
      · simp only [Except.ok.injEq, Prod.mk.injEq] at h
        rw [← h.1] at hp
        exact absurd hp (List.not_mem_nil p)
  · simp only [Except.ok.injEq, Prod.mk.injEq] at h
    rw [← h.1] at hp
    exact absurd hp (List.not_mem_nil p)

theorem buildOptimalPatterns_shape (nodes : List Node) (rels : List Relationship)
    (ret : ReturnClause) (whereC : Option WhereClause) (ps : List String)
    (h : buildOptimalPatterns nodes rels ret whereC = .ok ps) :
    ∀ p ∈ ps, (∃ t, p = "MATCH " ++ t) ∨ (∃ t, p = "OPTIONAL MATCH " ++ t) := by
  intro p hp
  simp only [buildOptimalPatterns] at h
  split at h
  · exact absurd h (by simp)
  · rename_i pr1 p1 bound1 heq1
    split at h
    · exact absurd h (by simp)
    · rename_i pr2 p2 bound2 heq2
      split at h
      · exact absurd h (by simp)
      · rename_i st3 p3 heq3
        simp only [Except.ok.injEq] at h
        subst h
        have hp' := List.mem_filter.mp hp
        rcases List.mem_append.mp hp'.1 with h123 | h4
        · rcases List.mem_append.mp h123 with h12 | h3
          · rcases List.mem_append.mp h12 with h1 | h2
            · exact Or.inl (requiredMatchStep_shape nodes rels p1 bound1 heq1 p h1)
            · exact Or.inl (anchorStep_shape nodes ret _ _ p2 bound2 heq2 p h2)
          · split at heq3
            · simp only [Except.ok.injEq] at heq3
              rw [← heq3] at h3
              exact absurd h3 (List.not_mem_nil p)
            · rw [buildOptionalMatchComponents] at heq3
              exact Or.inr (buildOptLines_shape _ nodes _ _ p3 heq3 p h3)
        · by_cases hcond : rels.length = 0 ∧
              (if rels.filter (fun r => !r.optional) = []
               then extractAnchorFromWhere whereC nodes else none) = none ∧
              bound1 ++ bound2 = [] ∧ nodes ≠ []
          · rw [if_pos hcond] at h4
            exact Or.inl ⟨_, by simpa using h4⟩
          · rw [if_neg hcond] at h4
            exact absurd h4 (List.not_mem_nil p)

theorem firstChar_matchLit (t : String) : firstChar ("MATCH " ++ t) = some 'M' := by
  rw [firstChar_append_of_ne_nil _ _ (by decide)]
  rfl

theorem firstChar_optionalLit (t : String) :
    firstChar ("OPTIONAL MATCH " ++ t) = some 'O' := by
  rw [firstChar_append_of_ne_nil _ _ (by decide)]
  rfl

theorem firstChar_whereClause (w : WhereClause) :
    firstChar (buildWhereClause w) = some 'W' := by
  rw [buildWhereClause, firstChar_append_of_ne_nil _ _ (by decide)]
  rfl

theorem firstChar_withClause (w : WithClause) :
    firstChar (buildWithClause w) = some 'W' := by
  rw [buildWithClause, firstChar_append_of_ne_nil _ _ (by decide)]
  rfl

theorem firstChar_returnClause (r : ReturnClause) :
    firstChar (buildReturnClause r) = some 'R' := by
  rw [buildReturnClause, String.append_assoc, String.append_assoc,
    firstChar_append_of_ne_nil _ _ (by decide)]
  rfl

theorem buildAdvancedMatchClause_firstChar (nodes : List Node) (rels : List Relationship)
    (ret : ReturnClause) (whereC : Option WhereClause) (m : String)
    (h : buildAdvancedMatchClause nodes rels ret whereC = .ok m) :
    m = "" ∨ firstChar m = some 'M' ∨ firstChar m = some 'O' := by
  simp only [buildAdvancedMatchClause] at h
  split at h
  · split at h
    · simp only [Except.ok.injEq] at h
      subst h
      exact Or.inr (Or.inl (firstChar_matchLit _))
    · simp only [Except.ok.injEq] at h
      exact Or.inl h.symm
  · split at h
    · exact absurd h (by simp)
    · rename_i ps heq
      simp only [Except.ok.injEq] at h
      subst h
      cases ps with
      | nil => exact Or.inl rfl
      | cons p rest =>
          rcases buildOptimalPatterns_shape nodes rels ret whereC _ heq p
              (List.mem_cons_self p rest) with ⟨t, ht⟩ | ⟨t, ht⟩
          · subst ht
            rw [joinSep_firstChar _ _ _ (match_prefix_data_ne_nil t)]
            exact Or.inr (Or.inl (firstChar_matchLit t))
          · subst ht
            rw [joinSep_firstChar _ _ _ (by rw [string_data_append]; simp)]
            exact Or.inr (Or.inr (firstChar_optionalLit t))

theorem buildMatchSection_firstChar (q : CypherQuery) (opt : Bool) (m : String)
    (h : buildMatchSection q opt = .ok m) :
    m = "" ∨ firstChar m = some 'M' ∨ firstChar m = some 'O' := by
  rw [buildMatchSection] at h
  split at h
  · exact buildAdvancedMatchClause_firstChar _ _ _ _ _ h
  · rcases buildSingleMatchClause_shape _ _ _ h with h' | ⟨t, ht⟩
    · exact Or.inl h'
    · subst ht
      exact Or.inr (Or.inl (firstChar_matchLit t))

theorem renderParts_firstChar (q : CypherQuery) (m : String)
    (hm : m = "" ∨ firstChar m = some 'M' ∨ firstChar m = some 'O') :
    firstChar (joinSep "\n" (renderParts q m)) = some 'M' ∨
    firstChar (joinSep "\n" (renderParts q m)) = some 'O' ∨
    firstChar (joinSep "\n" (renderParts q m)) = some 'W' ∨
    firstChar (joinSep "\n" (renderParts q m)) = some 'R' := by
  have hW : ∀ w, (buildWhereClause w).data ≠ [] := by
    intro w
    rw [buildWhereClause, string_data_append]
    simp
  have hWith : ∀ w, (buildWithClause w).data ≠ [] := by
    intro w
    rw [buildWithClause, string_data_append]
    simp
  rcases hm with hm | hm
  · subst hm
    simp only [renderParts, ne_eq, not_true_eq_false, if_false, List.nil_append]
    cases hw : q.whereClause with
    | some w =>
        simp only [List.cons_append, List.singleton_append]
        rw [joinSep_firstChar _ _ _ (hW w)]
        exact Or.inr (Or.inr (Or.inl (firstChar_whereClause w)))
    | none =>
        simp only [List.nil_append]
        cases hwith : q.with_ with
        | some w =>
            simp only [List.cons_append, List.singleton_append]
            rw [joinSep_firstChar _ _ _ (hWith w)]
            exact Or.inr (Or.inr (Or.inl (firstChar_withClause w)))
        | none =>
            simp only [List.nil_append]
            cases hlw : q.withClause with
            | some w =>
                simp only [List.cons_append, List.singleton_append]
                rw [joinSep_firstChar _ _ _ (hW w)]
                exact Or.inr (Or.inr (Or.inl (firstChar_whereClause w)))
            | none =>
                simp only [List.nil_append, List.cons_append, List.singleton_append]
                rw [joinSep_firstChar _ _ _ (by
                  rw [buildReturnClause, String.append_assoc, String.append_assoc,
                    string_data_append]
                  simp)]
                exact Or.inr (Or.inr (Or.inr (firstChar_returnClause q.returnClause)))
  · have hmne : m.data ≠ [] := by
      intro hnil
      rw [firstChar, hnil] at hm
      rcases hm with hm | hm <;> exact absurd hm (by simp)
    have : renderParts q m = m :: ((match q.whereClause with
        | some w => [buildWhereClause w] | none => []) ++
      (match q.with_ with | some w => [buildWithClause w] | none => []) ++
      (match q.withClause with | some w => [buildWhereClause w] | none => []) ++
      [buildReturnClause q.returnClause] ++
      (match q.orderBy with | some o => [buildOrderByClause o] | none => []) ++
      (match q.limit with | some l => [buildLimitClause l] | none => [])) := by
      rw [renderParts, if_pos (by
        intro hme
        subst hme
        exact hmne rfl)]
      simp [List.append_assoc]
    rw [this, joinSep_firstChar _ _ _ hmne]
    rcases hm with hm | hm
    · exact Or.inl hm
    · exact Or.inr (Or.inl hm)

/-- Claim C6: for every input document (binding outcome) the entry point
returns either the composed query text — in which case the compilation
pipeline succeeded with exactly that text, which never starts with the
failure marker, since every success starts with `MATCH`, `OPTIONAL MATCH`,
`WHERE`, `WITH` or `RETURN` — or a single failure string prefixed with the
marker `"❌ Error: "`; it never raises and never returns partial query text on
failure. -/
theorem c6_entry_point_contract (input : Except String CypherQuery) (optimize : Bool) :
    (∃ e, convertJsonToCypher input optimize = errMarker ++ e) ∨
    (∃ q, input = .ok q ∧
      compileQuery q optimize = .ok (convertJsonToCypher input optimize) ∧
      ∀ e, convertJsonToCypher input optimize ≠ errMarker ++ e) := by
  cases input with
  | error e => exact Or.inl ⟨e, rfl⟩
  | ok q =>
      cases hcq : compileQuery q optimize with
      | error e => exact Or.inl ⟨e, by rw [convertJsonToCypher, hcq]⟩
      | ok s =>
          refine Or.inr ⟨q, rfl, ?_, ?_⟩
          · rw [convertJsonToCypher, hcq]
          · intro e hcontra
            simp only [convertJsonToCypher, hcq] at hcontra
            rw [compileQuery] at hcq
            split at hcq
            · exact absurd hcq (by simp)
            · split at hcq
              · exact absurd hcq (by simp)
              · rename_i m hbm
                simp only [Except.ok.injEq] at hcq
                have hfc := renderParts_firstChar q m (buildMatchSection_firstChar q optimize m hbm)
                rw [hcq, hcontra] at hfc
                rw [firstChar_append_of_ne_nil _ _ (by decide)] at hfc
                have hx : firstChar errMarker = some '❌' := rfl
                rw [hx] at hfc
                rcases hfc with h | h | h | h <;> exact absurd h (by decide)
